import Mathlib

/-!
Verification of the `bda.cache` filesystem cache (`src/bda/cache/fscache.py`).

The module stores pickled objects in a directory tree.  A dotted key such as
`"a.b.c"` is split on `'.'`; all segments but the last become nested
directories below the cache root, while the last segment plus a trailing
marker `'.'` names the terminal file holding the pickled value.

Shallow embedding conventions:
* Python strings are modelled as `List Char` (named `Str` below), so that
  splitting on dots and re-joining admit plain structural induction.
* The filesystem below the cache root is modelled as a tree of named nodes
  (`Node` / `Entries`); `Entries` is an association list in directory listing
  order.  A file node carries its pickled content and a `readable` flag
  modelling whether opening it for reading raises `IOError` (e.g. permission
  denied); files written by the cache are readable.
* The pickled content of a file is `Option α`: `some v` is a valid pickle of
  the value `v` (so `pickle.load` returns `v`), `none` is a corrupt blob on
  which `pickle.load` raises.  Python's `None` is modelled separately as the
  `none` of the `Option α` appearing in `get`'s default argument.
* Operations that can raise to the caller return `Except Unit`.
-/

set_option maxRecDepth 4000

namespace FSCacheModel

/-- Python `str`, modelled as a list of characters. -/
abbrev Str : Type := List Char

/-- Python `key.split('.')`: split at every dot; never returns `[]`
(splitting the empty string yields `[[]]`, like Python's `[''])`. -/
def splitOnDot : Str → List Str
  | [] => [[]]
  | c :: rest =>
    if c = '.' then [] :: splitOnDot rest
    else
      match splitOnDot rest with
      | [] => [[c]]
      | s :: ss => (c :: s) :: ss

/-- The key reconstruction of `FSCache._readkeys`: the loop
`for part in path: key = '%s%s.' % (key, part)` followed by appending the
marker-stripped entry name.  Rendered as direct recursion producing the same
string `p1 ++ "." ++ ... ++ pk ++ "." ++ leaf`. -/
def joinKey : List Str → Str → Str
  | [], leaf => leaf
  | p :: ps, leaf => p ++ '.' :: joinKey ps leaf

/-- Join segments back with dots (inverse of `splitOnDot`); proof helper. -/
def joinAll : List Str → Str
  | [] => []
  | [s] => s
  | s :: ss => s ++ '.' :: joinAll ss

/-- `true` iff the string contains no `'.'`. -/
def noDot : Str → Bool
  | [] => true
  | c :: rest => if c = '.' then false else noDot rest

/-- `true` iff the string contains no path separator (`'/'` or `'\\'`). -/
def noSep : Str → Bool
  | [] => true
  | c :: rest => if c = '/' then false else if c = '\\' then false else noSep rest

/-- A well-formed name component: non-empty, no dot, no path separator.
Key segments produced by `splitOnDot` never contain a dot, so for keys the
dot condition is automatic; directory names on disk satisfy it as well. -/
def goodName (s : Str) : Bool :=
  !s.isEmpty && noDot s && noSep s

/-- A well-formed dotted key: every segment of `key.split('.')` is a
non-empty, separator-free name (the keys the class documentation allows). -/
def wfKeyB (key : Str) : Bool :=
  (splitOnDot key).all goodName

/-- The on-disk path of a key, relative to the cache root: all segments, the
last one with the trailing marker `'.'` appended.  This is the path built by
`__setitem__` (`os.path.join` of the leading segments plus
`'%s.' % objpath[-1]`), by `_getitem` (`'%s.' % os.path.join(...)`) and by
`__delitem__` (`path[-1] = '%s.' % path[-1]`). -/
def keyPath (key : Str) : List Str :=
  let segs := splitOnDot key
  segs.dropLast ++ [segs.getLastD [] ++ ['.']]

mutual

/-- A filesystem object below the cache root: either a regular file holding a
pickled blob (with a flag telling whether opening it for reading succeeds),
or a directory with its listing. -/
inductive Node (α : Type) : Type where
  | file (blob : Option α) (readable : Bool) : Node α
  | dir (entries : Entries α) : Node α

/-- A directory listing: an association list of names to nodes, in the order
`os.listdir` reports them. -/
inductive Entries (α : Type) : Type where
  | nil : Entries α
  | cons (name : Str) (node : Node α) (rest : Entries α) : Entries α

end

/-- The cache root right after construction: an empty directory. -/
def emptyStore (α : Type) : Node α := Node.dir Entries.nil

/-- Look a name up in a directory listing. -/
def lookupEntry {α : Type} : Entries α → Str → Option (Node α)
  | Entries.nil, _ => none
  | Entries.cons k v rest, name => if k = name then some v else lookupEntry rest name

/-- Replace the node stored under `name`, or append a new entry at the end of
the listing if `name` is absent (a freshly created directory entry). -/
def setEntry {α : Type} : Entries α → Str → Node α → Entries α
  | Entries.nil, name, n => Entries.cons name n Entries.nil
  | Entries.cons k v rest, name, n =>
    if k = name then Entries.cons k n rest else Entries.cons k v (setEntry rest name n)

/-- Remove the entry stored under `name` (no-op if absent). -/
def removeEntry {α : Type} : Entries α → Str → Entries α
  | Entries.nil, _ => Entries.nil
  | Entries.cons k v rest, name =>
    if k = name then rest else Entries.cons k v (removeEntry rest name)

/-- Resolve a relative path to the node it denotes, if any. -/
def Node.resolve {α : Type} : Node α → List Str → Option (Node α)
  | n, [] => some n
  | Node.file _ _, _ :: _ => none
  | Node.dir es, s :: rest =>
    match lookupEntry es s with
    | some child => child.resolve rest
    | none => none

/-- Is there a regular file at this relative path? -/
def Node.isFileAt {α : Type} (n : Node α) (p : List Str) : Bool :=
  match n.resolve p with
  | some (Node.file _ _) => true
  | _ => false

/-- The terminal file of `key` is present (`os.path` would find it). -/
def presentB {α : Type} (root : Node α) (key : Str) : Bool :=
  root.isFileAt (keyPath key)

/-- The blob stored at the terminal file of `key`, if that file exists. -/
def storedAt {α : Type} (root : Node α) (key : Str) : Option α :=
  match root.resolve (keyPath key) with
  | some (Node.file blob _) => blob
  | _ => none

/-- The walk of `FSCache.__setitem__`: descend along the leading segments,
creating each missing directory (`if not exists: os.mkdir(path)`), then open
the marker-suffixed leaf for writing and dump the blob.  Errors (a segment
blocked by a regular file, so that `os.mkdir` or the final `open` raises, or
the leaf name taken by a directory, so that `open(path, 'wb')` raises
`IOError`) propagate to the caller. -/
def Node.putAt {α : Type} : Node α → List Str → Str → Option α → Except Unit (Node α)
  | Node.file _ _, _, _, _ => Except.error ()
  | Node.dir es, [], fname, b =>
    match lookupEntry es fname with
    | some (Node.dir _) => Except.error ()
    | _ => Except.ok (Node.dir (setEntry es fname (Node.file b true)))
  | Node.dir es, seg :: rest, fname, b =>
    match (lookupEntry es seg).getD (Node.dir Entries.nil) |>.putAt rest fname b with
    | Except.ok c => Except.ok (Node.dir (setEntry es seg c))
    | Except.error e => Except.error e

/-- `FSCache.__setitem__` (`put`): split the key, create the intermediate
directories, write the pickle of `v` to the marker-suffixed terminal file. -/
def setitem {α : Type} (root : Node α) (key : Str) (v : α) : Except Unit (Node α) :=
  let segs := splitOnDot key
  root.putAt segs.dropLast (segs.getLastD [] ++ ['.']) (some v)

/-- `FSCache._getitem` (backing `get` and `__getitem__`): try to open the
terminal file; if `open` raises `IOError` (file absent, unreadable, or the
path denotes a directory) return the default; otherwise `pickle.load` —
which raises on a corrupt blob, propagating to the caller — and return the
loaded value. -/
def getitemRaw {α : Type} (root : Node α) (key : Str) (dflt : Option α) :
    Except Unit (Option α) :=
  match root.resolve (keyPath key) with
  | some (Node.file blob true) =>
    match blob with
    | some v => Except.ok (some v)
    | none => Except.error ()
  | _ => Except.ok dflt

/-- `FSCache.get(key, default)`: the user default `d : α` is the Python value
`some d`; `get(key)` with the implicit default is `getitemRaw root key none`. -/
def getValue {α : Type} (root : Node α) (key : Str) (dflt : Option α) :
    Except Unit (Option α) :=
  getitemRaw root key dflt

/-- `FSCache.__getitem__`: index-style read, not-found sentinel `None`. -/
def getitemIndex {α : Type} (root : Node α) (key : Str) : Except Unit (Option α) :=
  getitemRaw root key none

/-- `os.remove` on a relative path: succeeds (returning the updated tree)
exactly when the path denotes a regular file; raises `OSError` (modelled as
`none`) when the path is absent or denotes a directory. -/
def Node.removeFileAt {α : Type} : Node α → List Str → Option (Node α)
  | _, [] => none
  | Node.file _ _, _ :: _ => none
  | Node.dir es, [name] =>
    match lookupEntry es name with
    | some (Node.file _ _) => some (Node.dir (removeEntry es name))
    | _ => none
  | Node.dir es, name :: rest =>
    match lookupEntry es name with
    | some child =>
      match child.removeFileAt rest with
      | some c => some (Node.dir (setEntry es name c))
      | none => none
    | none => none

/-- `os.rmdir` as used by the pruning walk: drop the directory entry at the
given path.  The caller (`pruneLoop`) only invokes this on a path it has just
resolved to an empty directory. -/
def Node.rmdirAt {α : Type} : Node α → List Str → Node α
  | n, [] => n
  | Node.file b r, _ :: _ => Node.file b r
  | Node.dir es, [name] => Node.dir (removeEntry es name)
  | Node.dir es, name :: rest =>
    match lookupEntry es name with
    | some child => Node.dir (setEntry es name (child.rmdirAt rest))
    | none => Node.dir es

/-- The ancestor-pruning loop of `FSCache.__delitem__`: for
`pt = len(path)-1, ..., 1`, list `path[:pt]`; if empty, `os.rmdir` it and
continue upward, else break.  (The loop's `if not previous: return None` is
dead code since `pt > 0`; after a successful `os.remove`, every listed
ancestor exists, so `os.listdir` cannot raise here.) -/
def pruneLoop {α : Type} (root : Node α) (path : List Str) : Nat → Node α
  | 0 => root
  | pt + 1 =>
    match root.resolve (path.take (pt + 1)) with
    | some (Node.dir Entries.nil) => pruneLoop (root.rmdirAt (path.take (pt + 1))) path pt
    | _ => root

/-- `FSCache.__delitem__` (`delete`): try to `os.remove` the terminal file;
on `OSError` (absent, or a directory) return with the tree untouched;
otherwise run the ancestor-pruning walk. -/
def delitem {α : Type} (root : Node α) (key : Str) : Node α :=
  let path := keyPath key
  match root.removeFileAt path with
  | none => root
  | some root' => pruneLoop root' path (path.length - 1)

mutual

/-- `FSCache._readkeys`, node side: `os.listdir` the directory and scan its
entries.  (`_readkeys` is only ever called on directories: an unmarked name
is assumed to be one; the `file` case is unreachable from a store whose
files all carry the marker.) -/
def Node.readkeysNode {α : Type} : Node α → List Str → List Str → List Str
  | Node.dir es, path, ks => readkeysEntries es path ks
  | Node.file _ _, _, ks => ks

/-- `FSCache._readkeys`, listing side: an entry whose last character is the
marker `'.'` contributes the reconstructed dotted key; any other entry is
recursed into with its name appended to the path. -/
def readkeysEntries {α : Type} : Entries α → List Str → List Str → List Str
  | Entries.nil, _, ks => ks
  | Entries.cons name child rest, path, ks =>
    if name.getLast? = some '.' then
      readkeysEntries rest path (ks ++ [joinKey path name.dropLast])
    else
      readkeysEntries rest path (child.readkeysNode (path ++ [name]) ks)

end

/-- `FSCache.keys()`: `self._readkeys([])` from the root. -/
def keysOf {α : Type} (root : Node α) : List Str :=
  root.readkeysNode [] []

/-- The loop of `FSCache.values()`: `self[key]` for each key, appended in
order; an exception from a lookup aborts the loop and propagates. -/
def valuesList {α : Type} (root : Node α) : List Str → Except Unit (List (Option α))
  | [] => Except.ok []
  | k :: ks =>
    match getitemIndex root k with
    | Except.ok v =>
      match valuesList root ks with
      | Except.ok vs => Except.ok (v :: vs)
      | Except.error e => Except.error e
    | Except.error e => Except.error e

/-- `FSCache.values()`: the lookup loop run over `keys()`. -/
def valuesOf {α : Type} (root : Node α) : Except Unit (List (Option α)) :=
  valuesList root (keysOf root)

/-- One mapping operation issued by a caller. -/
inductive Op (α : Type) : Type where
  | put (key : Str) (v : α) : Op α
  | del (key : Str) : Op α

/-- Run one operation (`cache[k] = v` or `del cache[k]`). -/
def applyOp {α : Type} (root : Node α) : Op α → Except Unit (Node α)
  | Op.put k v => setitem root k v
  | Op.del k => Except.ok (delitem root k)

/-- Run a sequence of operations, propagating any raised error. -/
def runOps {α : Type} (root : Node α) : List (Op α) → Except Unit (Node α)
  | [] => Except.ok root
  | op :: rest =>
    match applyOp root op with
    | Except.ok root' => runOps root' rest
    | Except.error e => Except.error e

/-- The key an operation addresses. -/
def Op.key {α : Type} : Op α → Str
  | Op.put k _ => k
  | Op.del k => k

/-- Does the operation write (put) the given key? -/
def opWritesKey {α : Type} : Op α → Str → Bool
  | Op.put k _, key => decide (k = key)
  | Op.del _, _ => false

/-- The naming discipline for one directory entry. -/
def entryNameOk {α : Type} (name : Str) : Node α → Bool
  | Node.file _ _ => (name.getLast? == some '.') && goodName name.dropLast
  | Node.dir _ => goodName name

mutual

/-- Store well-formedness, node side: files hold a valid readable pickle (as
every file written by `__setitem__` does). -/
def Node.wfStore {α : Type} : Node α → Bool
  | Node.file blob readable => blob.isSome && readable
  | Node.dir es => wfEntries es

/-- Store well-formedness, listing side: names are unique; a file's name is a
good segment plus the trailing marker `'.'`; a directory's name is a good
segment (so carries no marker).  Every state reachable through well-formed
keys satisfies this. -/
def wfEntries {α : Type} : Entries α → Bool
  | Entries.nil => true
  | Entries.cons name child rest =>
    entryNameOk name child && child.wfStore && (lookupEntry rest name).isNone
      && wfEntries rest

end

/-! ### Lemmas about splitting and joining keys -/

theorem splitOnDot_ne_nil (s : Str) : splitOnDot s ≠ [] := by
  induction s with
  | nil => simp [splitOnDot]
  | cons c rest ih =>
    simp only [splitOnDot]
    split
    · simp
    · split <;> simp

theorem joinAll_cons_cons (s x : Str) (xs : List Str) :
    joinAll (s :: x :: xs) = s ++ '.' :: joinAll (x :: xs) := rfl

theorem joinAll_splitOnDot (s : Str) : joinAll (splitOnDot s) = s := by
  induction s with
  | nil => rfl
  | cons c rest ih =>
    obtain ⟨x, xs, hx⟩ : ∃ x xs, splitOnDot rest = x :: xs := by
      cases h : splitOnDot rest with
      | nil => exact absurd h (splitOnDot_ne_nil rest)
      | cons x xs => exact ⟨x, xs, rfl⟩
    by_cases hc : c = '.'
    · subst hc
      have h1 : splitOnDot ('.' :: rest) = [] :: splitOnDot rest := by
        simp [splitOnDot]
      rw [h1, hx, joinAll_cons_cons, ← hx, ih]
      rfl
    · have h1 : splitOnDot (c :: rest) = (c :: x) :: xs := by
        simp only [splitOnDot, if_neg hc, hx]
      rw [h1]
      cases xs with
      | nil =>
        have : joinAll [x] = rest := by rw [← hx, ih]
        simp only [joinAll] at this ⊢
        rw [this]
      | cons y ys =>
        have : joinAll (x :: y :: ys) = rest := by rw [← hx, ih]
        rw [joinAll_cons_cons] at this
        rw [joinAll_cons_cons, List.cons_append, this]

theorem splitOnDot_noDot (s : Str) (h : noDot s = true) : splitOnDot s = [s] := by
  induction s with
  | nil => rfl
  | cons c rest ih =>
    simp only [noDot] at h
    split at h
    · exact absurd h (by simp)
    · rename_i hc
      simp only [splitOnDot, if_neg hc, ih h]

theorem splitOnDot_append_dot (p rest : Str) (h : noDot p = true) :
    splitOnDot (p ++ '.' :: rest) = p :: splitOnDot rest := by
  induction p with
  | nil => simp [splitOnDot]
  | cons c p' ih =>
    simp only [noDot] at h
    split at h
    · exact absurd h (by simp)
    · rename_i hc
      have h2 := ih h
      simp only [List.cons_append, splitOnDot, if_neg hc, List.append_eq, h2]

theorem splitOnDot_joinKey (ds : List Str) (leaf : Str)
    (hds : ds.all noDot = true) (hleaf : noDot leaf = true) :
    splitOnDot (joinKey ds leaf) = ds ++ [leaf] := by
  induction ds with
  | nil => simpa [joinKey] using splitOnDot_noDot leaf hleaf
  | cons p ps ih =>
    simp only [List.all_cons, Bool.and_eq_true] at hds
    simp only [joinKey]
    rw [splitOnDot_append_dot p _ hds.1, ih hds.2]
    rfl

theorem joinKey_eq_joinAll (ds : List Str) (leaf : Str) :
    joinKey ds leaf = joinAll (ds ++ [leaf]) := by
  induction ds with
  | nil => rfl
  | cons p ps ih =>
    cases ps with
    | nil => rfl
    | cons q qs =>
      simp only [joinKey] at ih ⊢
      rw [ih]
      rfl

theorem dropLast_append_getLastD {β : Type} (l : List β) (d : β) (h : l ≠ []) :
    l.dropLast ++ [l.getLastD d] = l := by
  induction l generalizing d with
  | nil => exact absurd rfl h
  | cons x xs ih =>
    cases xs with
    | nil => rfl
    | cons y ys =>
      show x :: ((y :: ys).dropLast ++ [(y :: ys).getLastD x]) = x :: y :: ys
      rw [ih x (by simp)]

theorem keyPath_injective (k1 k2 : Str) (h : keyPath k1 = keyPath k2) : k1 = k2 := by
  have h1 := congrArg List.dropLast h
  have h2 := congrArg List.getLast? h
  simp only [keyPath, List.dropLast_concat, List.getLast?_concat] at h1 h2
  have h2' : (splitOnDot k1).getLastD [] = (splitOnDot k2).getLastD [] := by
    have := h2
    simp only [Option.some.injEq] at this
    exact (List.append_left_inj _).mp this
  have hs : splitOnDot k1 = splitOnDot k2 := by
    calc splitOnDot k1
        = (splitOnDot k1).dropLast ++ [(splitOnDot k1).getLastD []] :=
          (dropLast_append_getLastD _ _ (splitOnDot_ne_nil k1)).symm
      _ = (splitOnDot k2).dropLast ++ [(splitOnDot k2).getLastD []] := by rw [h1, h2']
      _ = splitOnDot k2 := dropLast_append_getLastD _ _ (splitOnDot_ne_nil k2)
  calc k1 = joinAll (splitOnDot k1) := (joinAll_splitOnDot k1).symm
    _ = joinAll (splitOnDot k2) := by rw [hs]
    _ = k2 := joinAll_splitOnDot k2

theorem noDot_getLast?_ne (s : Str) (h : noDot s = true) : s.getLast? ≠ some '.' := by
  induction s with
  | nil => simp
  | cons c rest ih =>
    simp only [noDot] at h
    split at h
    · exact absurd h (by simp)
    · rename_i hc
      cases rest with
      | nil => simpa using hc
      | cons y ys => simpa [List.getLast?_cons_cons] using ih h

theorem goodName_getLast?_ne (s : Str) (h : goodName s = true) :
    s.getLast? ≠ some '.' := by
  simp only [goodName, Bool.and_eq_true] at h
  exact noDot_getLast?_ne s h.1.2

theorem noDot_append_dot (s : Str) : noDot (s ++ ['.']) = false := by
  induction s with
  | nil => rfl
  | cons c rest ih =>
    simp only [List.cons_append, noDot]
    split
    · rfl
    · exact ih

theorem goodName_append_dot (s : Str) : goodName (s ++ ['.']) = false := by
  simp [goodName, noDot_append_dot]

/-! ### Induction principles for the mutual filesystem tree -/

theorem entriesInd {α : Type} (Q : Entries α → Prop)
    (hnil : Q Entries.nil)
    (hcons : ∀ (name : Str) (child : Node α) (rest : Entries α),
      Q rest → Q (Entries.cons name child rest)) :
    ∀ es : Entries α, Q es :=
  fun es =>
    @Entries.rec α (fun _ => True) Q (fun _ _ => trivial) (fun _ _ => trivial) hnil
      (fun name child rest _ hr => hcons name child rest hr) es

theorem nodeEntriesInd {α : Type} (P : Node α → Prop) (Q : Entries α → Prop)
    (hfile : ∀ (blob : Option α) (readable : Bool), P (Node.file blob readable))
    (hdir : ∀ es : Entries α, Q es → P (Node.dir es))
    (hnil : Q Entries.nil)
    (hcons : ∀ (name : Str) (child : Node α) (rest : Entries α),
      P child → Q rest → Q (Entries.cons name child rest)) :
    (∀ n : Node α, P n) ∧ (∀ es : Entries α, Q es) :=
  ⟨fun n => @Node.rec α P Q hfile hdir hnil hcons n,
   fun es => @Entries.rec α P Q hfile hdir hnil hcons es⟩

/-! ### Lemmas about directory listings -/

theorem lookup_setEntry_self {α : Type} (es : Entries α) (name : Str) (n : Node α) :
    lookupEntry (setEntry es name n) name = some n := by
  induction es using entriesInd with
  | hnil => simp [setEntry, lookupEntry]
  | hcons k v rest ih =>
    by_cases hk : k = name
    · simp [setEntry, lookupEntry, hk]
    · simp [setEntry, lookupEntry, hk, ih]

theorem lookup_setEntry_ne {α : Type} (es : Entries α) (name k : Str) (n : Node α)
    (h : k ≠ name) : lookupEntry (setEntry es name n) k = lookupEntry es k := by
  induction es using entriesInd with
  | hnil => simp [setEntry, lookupEntry, Ne.symm h]
  | hcons k' v rest ih =>
    by_cases hk : k' = name
    · subst hk
      simp [setEntry, lookupEntry, Ne.symm h]
    · by_cases hkk : k' = k
      · simp [setEntry, lookupEntry, hk, hkk, h]
      · simp [setEntry, lookupEntry, hk, hkk, ih]

theorem lookup_removeEntry_none {α : Type} (es : Entries α) (name k : Str)
    (h : lookupEntry es k = none) :
    lookupEntry (removeEntry es name) k = none := by
  induction es using entriesInd with
  | hnil => simpa [removeEntry] using h
  | hcons k' v rest ih =>
    simp only [lookupEntry] at h
    split at h
    · exact absurd h (by simp)
    · rename_i hk'
      by_cases hr : k' = name
      · simpa [removeEntry, hr] using h
      · simpa [removeEntry, hr, lookupEntry, hk'] using ih h

theorem wf_lookup {α : Type} (es : Entries α) (name : Str) (child : Node α)
    (hwf : wfEntries es = true) (h : lookupEntry es name = some child) :
    child.wfStore = true ∧ entryNameOk name child = true := by
  induction es using entriesInd with
  | hnil => simp [lookupEntry] at h
  | hcons k v rest ih =>
    simp only [wfEntries, Bool.and_eq_true] at hwf
    simp only [lookupEntry] at h
    split at h
    · rename_i hk
      cases h
      subst hk
      exact ⟨hwf.1.1.2, hwf.1.1.1⟩
    · exact ih hwf.2 h

theorem wfEntries_setEntry {α : Type} (es : Entries α) (name : Str) (n : Node α)
    (hwf : wfEntries es = true) (hok : entryNameOk name n = true)
    (hn : n.wfStore = true) : wfEntries (setEntry es name n) = true := by
  induction es using entriesInd with
  | hnil => simp [setEntry, wfEntries, lookupEntry, hok, hn]
  | hcons k v rest ih =>
    simp only [wfEntries, Bool.and_eq_true] at hwf
    by_cases hk : k = name
    · subst hk
      simp only [setEntry, if_pos rfl, wfEntries, Bool.and_eq_true]
      exact ⟨⟨⟨hok, hn⟩, hwf.1.2⟩, hwf.2⟩
    · simp only [setEntry, if_neg hk, wfEntries, Bool.and_eq_true]
      refine ⟨⟨⟨hwf.1.1.1, hwf.1.1.2⟩, ?_⟩, ih hwf.2⟩
      rw [lookup_setEntry_ne rest name k n hk]
      exact hwf.1.2

theorem wfEntries_removeEntry {α : Type} (es : Entries α) (name : Str)
    (hwf : wfEntries es = true) : wfEntries (removeEntry es name) = true := by
  induction es using entriesInd with
  | hnil => simpa [removeEntry] using hwf
  | hcons k v rest ih =>
    simp only [wfEntries, Bool.and_eq_true] at hwf
    by_cases hk : k = name
    · simpa [removeEntry, hk] using hwf.2
    · simp only [removeEntry, if_neg hk, wfEntries, Bool.and_eq_true]
      refine ⟨⟨⟨hwf.1.1.1, hwf.1.1.2⟩, ?_⟩, ih hwf.2⟩
      have := hwf.1.2
      simp only [Option.isNone_iff_eq_none] at this ⊢
      exact lookup_removeEntry_none rest name k this

/-! ### Lemmas about the write path (`__setitem__`) -/

theorem putAt_ok {α : Type} (dirs : List Str) (es : Entries α) (leaf : Str) (b : Option α)
    (hwf : wfEntries es = true) (hdirs : dirs.all goodName = true)
    (hleaf : goodName leaf = true) (hb : b.isSome = true) :
    ∃ es', (Node.dir es).putAt dirs (leaf ++ ['.']) b = Except.ok (Node.dir es')
      ∧ (Node.dir es').resolve (dirs ++ [leaf ++ ['.']]) = some (Node.file b true)
      ∧ wfEntries es' = true := by
  induction dirs generalizing es with
  | nil =>
    refine ⟨setEntry es (leaf ++ ['.']) (Node.file b true), ?_, ?_, ?_⟩
    · simp only [Node.putAt]
      cases h : lookupEntry es (leaf ++ ['.']) with
      | none => rfl
      | some child =>
        cases child with
        | file blob r => rfl
        | dir des =>
          have := (wf_lookup es _ _ hwf h).2
          simp only [entryNameOk] at this
          rw [goodName_append_dot] at this
          cases this
    · simp only [List.nil_append, Node.resolve, lookup_setEntry_self]
    · refine wfEntries_setEntry es _ _ hwf ?_ ?_
      · simp [entryNameOk, List.getLast?_concat, List.dropLast_concat, hleaf]
      · simp [Node.wfStore, hb]
  | cons d ds ih =>
    simp only [List.all_cons, Bool.and_eq_true] at hdirs
    have hchild : ∃ es2, (lookupEntry es d).getD (Node.dir Entries.nil) = Node.dir es2
        ∧ wfEntries es2 = true := by
      cases h : lookupEntry es d with
      | none => exact ⟨Entries.nil, rfl, rfl⟩
      | some child =>
        cases child with
        | file blob r =>
          have := (wf_lookup es _ _ hwf h).2
          simp only [entryNameOk, Bool.and_eq_true, beq_iff_eq] at this
          exact absurd this.1 (goodName_getLast?_ne d hdirs.1)
        | dir des =>
          have := (wf_lookup es _ _ hwf h).1
          exact ⟨des, rfl, this⟩
    obtain ⟨es2, hes2, hwf2⟩ := hchild
    obtain ⟨es2', hput, hres, hwf'⟩ := ih es2 hwf2 hdirs.2
    refine ⟨setEntry es d (Node.dir es2'), ?_, ?_, ?_⟩
    · simp only [Node.putAt, hes2, hput]
    · simp only [List.cons_append, Node.resolve, lookup_setEntry_self]
      exact hres
    · exact wfEntries_setEntry es d _ hwf (by simpa [entryNameOk] using hdirs.1) hwf'

/-- A well-formed store root: the constructor guarantees the cache root is a
directory (`os.path.isdir` check), and its tree is well-formed. -/
def wfRoot {α : Type} : Node α → Bool
  | Node.dir es => wfEntries es
  | Node.file _ _ => false

theorem wfRoot_emptyStore (α : Type) : wfRoot (emptyStore α) = true := rfl

theorem wfKey_parts (key : Str) (h : wfKeyB key = true) :
    (splitOnDot key).dropLast.all goodName = true
      ∧ goodName ((splitOnDot key).getLastD []) = true := by
  have heq := dropLast_append_getLastD (splitOnDot key) [] (splitOnDot_ne_nil key)
  unfold wfKeyB at h
  rw [← heq, List.all_append] at h
  simp only [Bool.and_eq_true, List.all_cons, List.all_nil, Bool.and_true] at h
  exact h

theorem setitem_ok {α : Type} (s : Node α) (key : Str) (v : α)
    (hs : wfRoot s = true) (hk : wfKeyB key = true) :
    ∃ es', setitem s key v = Except.ok (Node.dir es')
      ∧ (Node.dir es').resolve (keyPath key) = some (Node.file (some v) true)
      ∧ wfRoot (Node.dir es') = true := by
  cases s with
  | file b r => simp [wfRoot] at hs
  | dir es =>
    obtain ⟨hdirs, hleaf⟩ := wfKey_parts key hk
    obtain ⟨es', h1, h2, h3⟩ :=
      putAt_ok (splitOnDot key).dropLast es ((splitOnDot key).getLastD [])
        (some v) hs hdirs hleaf rfl
    exact ⟨es', h1, h2, h3⟩

theorem getitemRaw_of_resolve {α : Type} (s : Node α) (key : Str) (v : α)
    (d : Option α) (h : s.resolve (keyPath key) = some (Node.file (some v) true)) :
    getitemRaw s key d = Except.ok (some v) := by
  simp only [getitemRaw, h]

theorem getitemRaw_of_absent {α : Type} (s : Node α) (key : Str) (d : Option α)
    (h : presentB s key = false) : getitemRaw s key d = Except.ok d := by
  simp only [presentB, Node.isFileAt] at h
  simp only [getitemRaw]
  cases hres : s.resolve (keyPath key) with
  | none => rfl
  | some n =>
    cases n with
    | file blob readable =>
      rw [hres] at h
      simp at h
    | dir es => rfl

/-! ### Claim C1 -/

/-- C1: for every well-formed dotted key `K` and value `V`, from any
well-formed store state (the root is a directory whose tree satisfies the
naming discipline — every state the cache itself builds does, see
`runOps_wfRoot`), `put(K, V)` succeeds — also when an entry for `K` already
exists, which is overwritten — and a subsequent `get(K, default)` returns a
value equal to `V`. -/
theorem claim_C1_put_get_roundtrip {α : Type} (s : Node α) (key : Str) (v : α)
    (d : Option α) (hs : wfRoot s = true) (hk : wfKeyB key = true) :
    ∃ s', setitem s key v = Except.ok s'
      ∧ getitemRaw s' key d = Except.ok (some v) := by
  obtain ⟨es', h1, h2, _⟩ := setitem_ok s key v hs hk
  exact ⟨Node.dir es', h1, getitemRaw_of_resolve _ _ _ _ h2⟩

/-- C1 witness: a store that already holds `5` under key `"a"` (file `"a."`);
putting `7` there overwrites and reading it back yields `7`. -/
theorem claim_C1_witness :
    ∃ s', setitem (Node.dir (Entries.cons ['a', '.'] (Node.file (some 5) true)
        Entries.nil)) ['a'] 7 = Except.ok s'
      ∧ getitemRaw s' ['a'] (some 0) = Except.ok (some 7) :=
  claim_C1_put_get_roundtrip _ ['a'] 7 (some 0) (by decide) (by decide)

theorem putAt_cons_lookup_ne {α : Type} (es es' : Entries α) (dd : Str)
    (ds : List Str) (fname : Str) (b : Option α)
    (hput : (Node.dir es).putAt (dd :: ds) fname b = Except.ok (Node.dir es'))
    (k : Str) (hk : k ≠ dd) : lookupEntry es' k = lookupEntry es k := by
  simp only [Node.putAt] at hput
  cases hm : ((lookupEntry es dd).getD (Node.dir Entries.nil)).putAt ds fname b with
  | error e => rw [hm] at hput; cases hput
  | ok c =>
    rw [hm] at hput
    have : Node.dir (setEntry es dd c) = Node.dir es' := by
      simpa using hput
    have hes : setEntry es dd c = es' := by
      cases this; rfl
    rw [← hes]
    exact lookup_setEntry_ne es dd k c hk

/-! ### Claim C4 -/

/-- C4: from any well-formed store state, `put("foo", v1)` and
`put("foo.bar", v2)` both succeed, the value of `"foo"` lives in the
marker-suffixed file `foo.` beside the directory `foo/` that holds `bar.`,
and the two entries are independently retrievable. -/
theorem claim_C4_coexistence {α : Type} (s : Node α) (v1 v2 : α) (d : Option α)
    (hs : wfRoot s = true) :
    ∃ s1 s2,
      setitem s ['f', 'o', 'o'] v1 = Except.ok s1
      ∧ setitem s1 ['f', 'o', 'o', '.', 'b', 'a', 'r'] v2 = Except.ok s2
      ∧ getitemRaw s2 ['f', 'o', 'o'] d = Except.ok (some v1)
      ∧ getitemRaw s2 ['f', 'o', 'o', '.', 'b', 'a', 'r'] d = Except.ok (some v2)
      ∧ s2.resolve [['f', 'o', 'o', '.']] = some (Node.file (some v1) true)
      ∧ (∃ des, s2.resolve [['f', 'o', 'o']] = some (Node.dir des))
      ∧ s2.resolve [['f', 'o', 'o'], ['b', 'a', 'r', '.']]
          = some (Node.file (some v2) true) := by
  obtain ⟨es1, h1, hres1, hwf1⟩ := setitem_ok s ['f', 'o', 'o'] v1 hs (by decide)
  obtain ⟨es2, h2, hres2, hwf2⟩ :=
    setitem_ok (Node.dir es1) ['f', 'o', 'o', '.', 'b', 'a', 'r'] v2 hwf1 (by decide)
  have hkp1 : keyPath ['f', 'o', 'o'] = [['f', 'o', 'o', '.']] := rfl
  have hkp2 : keyPath ['f', 'o', 'o', '.', 'b', 'a', 'r']
      = [['f', 'o', 'o'], ['b', 'a', 'r', '.']] := rfl
  rw [hkp1] at hres1
  rw [hkp2] at hres2
  have hput2 : (Node.dir es1).putAt [['f', 'o', 'o']] ['b', 'a', 'r', '.']
      (some v2) = Except.ok (Node.dir es2) := h2
  have hlk : lookupEntry es2 ['f', 'o', 'o', '.']
      = lookupEntry es1 ['f', 'o', 'o', '.'] :=
    putAt_cons_lookup_ne es1 es2 _ _ _ _ hput2 _ (by decide)
  have hlk1 : lookupEntry es1 ['f', 'o', 'o', '.']
      = some (Node.file (some v1) true) := by
    have hthis := hres1
    simp only [Node.resolve] at hthis
    cases hx : lookupEntry es1 ['f', 'o', 'o', '.'] with
    | none => rw [hx] at hthis; cases hthis
    | some child => rw [hx] at hthis; simpa [Node.resolve] using hthis
  have hresfoo : (Node.dir es2).resolve [['f', 'o', 'o', '.']]
      = some (Node.file (some v1) true) := by
    simp [Node.resolve, hlk, hlk1]
  have hfoo_dir : ∃ des, (Node.dir es2).resolve [['f', 'o', 'o']]
      = some (Node.dir des) := by
    have hbar := hres2
    simp only [Node.resolve] at hbar ⊢
    cases hx : lookupEntry es2 ['f', 'o', 'o'] with
    | none => rw [hx] at hbar; cases hbar
    | some child =>
      rw [hx] at hbar
      cases child with
      | file bb rr => simp [Node.resolve] at hbar
      | dir des => exact ⟨des, rfl⟩
  refine ⟨Node.dir es1, Node.dir es2, h1, h2, ?_, ?_, hresfoo, hfoo_dir, hres2⟩
  · exact getitemRaw_of_resolve _ _ _ _ (by rw [hkp1]; exact hresfoo)
  · exact getitemRaw_of_resolve _ _ _ _ (by rw [hkp2]; exact hres2)

/-- C4 witness: from the empty store, with `v1 = 1`, `v2 = 2`. -/
theorem claim_C4_witness :
    ∃ s1 s2,
      setitem (emptyStore Nat) ['f', 'o', 'o'] 1 = Except.ok s1
      ∧ setitem s1 ['f', 'o', 'o', '.', 'b', 'a', 'r'] 2 = Except.ok s2
      ∧ getitemRaw s2 ['f', 'o', 'o'] none = Except.ok (some 1)
      ∧ getitemRaw s2 ['f', 'o', 'o', '.', 'b', 'a', 'r'] none = Except.ok (some 2)
      ∧ s2.resolve [['f', 'o', 'o', '.']] = some (Node.file (some 1) true)
      ∧ (∃ des, s2.resolve [['f', 'o', 'o']] = some (Node.dir des))
      ∧ s2.resolve [['f', 'o', 'o'], ['b', 'a', 'r', '.']]
          = some (Node.file (some 2) true) :=
  claim_C4_coexistence (emptyStore Nat) 1 2 none rfl

/-! ### Lemmas about the delete path (`__delitem__`) -/

theorem removeFileAt_eq_none {α : Type} (p : List Str) (s : Node α)
    (h : s.isFileAt p = false) : s.removeFileAt p = none := by
  induction p generalizing s with
  | nil => cases s <;> rfl
  | cons name rest ih =>
    cases s with
    | file b r => rfl
    | dir es =>
      simp only [Node.isFileAt, Node.resolve] at h
      cases rest with
      | nil =>
        simp only [Node.removeFileAt]
        cases hl : lookupEntry es name with
        | none => rfl
        | some child =>
          rw [hl] at h
          cases child with
          | file blob r => simp [Node.resolve] at h
          | dir des => rfl
      | cons r rs =>
        simp only [Node.removeFileAt]
        cases hl : lookupEntry es name with
        | none => rfl
        | some child =>
          rw [hl] at h
          have hrec : child.removeFileAt (r :: rs) = none := by
            apply ih
            simpa [Node.isFileAt] using h
          simp [hrec]

/-! ### Claim C5 -/

/-- C5: `delete(K)` on a key whose terminal file is absent is a no-op: the
`OSError` raised by `os.remove` is caught, the method returns `None` (it can
raise nothing afterwards), and the tree is unchanged. -/
theorem claim_C5_delete_absent {α : Type} (s : Node α) (key : Str)
    (h : presentB s key = false) : delitem s key = s := by
  have hr : s.removeFileAt (keyPath key) = none :=
    removeFileAt_eq_none (keyPath key) s h
  simp only [delitem, hr]

/-- C5 witness: deleting the never-written key `"a"` from a store holding
only `"b"` leaves the store exactly as it was. -/
theorem claim_C5_witness :
    delitem (Node.dir (Entries.cons ['b', '.'] (Node.file (some 1) true)
        Entries.nil)) ['a']
      = Node.dir (Entries.cons ['b', '.'] (Node.file (some 1) true) Entries.nil) :=
  claim_C5_delete_absent _ ['a'] (by decide)

/-! ### Claim C9 -/

/-- C9 (implicit): whenever `os.remove` of the terminal file fails — key
absent, or the path naming a directory — `__delitem__` returns inside the
`except OSError` handler, before the ancestor-pruning loop is ever reached,
so the tree is left entirely unchanged: in particular, already-existing empty
ancestor directories of the key are not pruned. -/
theorem claim_C9_failed_remove_frame {α : Type} (s : Node α) (key : Str)
    (h : s.removeFileAt (keyPath key) = none) : delitem s key = s := by
  simp only [delitem, h]

/-- C9 witness: the store holds an empty directory `a/`; deleting the absent
key `"a.b"` does not prune `a/` — the store is returned unchanged. -/
theorem claim_C9_witness :
    delitem (Node.dir (Entries.cons ['a'] (Node.dir Entries.nil) Entries.nil))
        (['a', '.', 'b'] : Str)
      = Node.dir (Entries.cons ['a'] (Node.dir (Entries.nil : Entries Nat))
          Entries.nil) :=
  claim_C9_failed_remove_frame _ (['a', '.', 'b'] : Str) rfl

/-! ### Claim C3 -/

/-- C3: delete prunes now-empty ancestors bottom-up, stopping before the
root and at the first non-empty ancestor.  First scenario: from the empty
store, `put("a.b.c", v)` then `delete("a.b.c")` removes the file, then
`a/b/` (empty), then `a/` (empty), and stops at the root: the store is the
empty root again.  Second scenario: with a sibling entry `"a.x"` present,
the walk removes `a/b/` but stops at the non-empty `a/`, leaving the store
exactly as it was before `put("a.b.c", v)`. -/
theorem claim_C3_delete_prunes {α : Type} (v w : α) :
    (∃ s1, setitem (emptyStore α) ['a', '.', 'b', '.', 'c'] v = Except.ok s1
      ∧ delitem s1 ['a', '.', 'b', '.', 'c'] = emptyStore α)
    ∧ (∃ s2 s3, setitem (emptyStore α) ['a', '.', 'x'] w = Except.ok s2
      ∧ setitem s2 ['a', '.', 'b', '.', 'c'] v = Except.ok s3
      ∧ delitem s3 ['a', '.', 'b', '.', 'c'] = s2) := by
  refine ⟨⟨_, rfl, ?_⟩, _, _, rfl, rfl, ?_⟩ <;> rfl

/-! ### Claim C7 -/

/-- C7: when the terminal file exists and is readable but holds a corrupt
blob, `pickle.load` raises and `_getitem` propagates the failure to the
caller: `get(K, default)` raises rather than returning the default, so
deserialization failure is never conflated with absence. -/
theorem claim_C7_corrupt_propagates {α : Type} (s : Node α) (key : Str)
    (d : Option α) (h : s.resolve (keyPath key) = some (Node.file none true)) :
    getitemRaw s key d = Except.error ()
      ∧ ∀ x, getitemRaw s key d ≠ Except.ok x := by
  have herr : getitemRaw s key d = Except.error () := by
    simp only [getitemRaw, h]
  exact ⟨herr, fun x hx => by rw [herr] at hx; cases hx⟩

/-- C7 witness: a store whose file `"a."` holds a corrupt blob; `get("a", 3)`
raises instead of returning `3`. -/
theorem claim_C7_witness :
    getitemRaw (Node.dir (Entries.cons ['a', '.']
        (Node.file (none : Option Nat) true) Entries.nil)) ['a'] (some 3)
      = Except.error ()
      ∧ ∀ x, getitemRaw (Node.dir (Entries.cons ['a', '.']
          (Node.file (none : Option Nat) true) Entries.nil)) ['a'] (some 3)
        ≠ Except.ok x :=
  claim_C7_corrupt_propagates _ ['a'] (some 3) rfl

/-! ### Claim C10 -/

/-- C10 (implicit): `_getitem` catches every `IOError` from `open` — not
only "file absent" but e.g. "permission denied" (modelled by
`readable = false`) — and returns the default, exactly the output produced
for an absent key, so an open failure is indistinguishable from absence at
the public interface. -/
theorem claim_C10_open_failure_default {α : Type} (s : Node α) (key : Str)
    (d b : Option α) (h : s.resolve (keyPath key) = some (Node.file b false)) :
    getitemRaw s key d = Except.ok d := by
  simp only [getitemRaw, h]

/-- C10 witness: the file `"a."` exists and holds a valid pickle of `3`, but
opening it fails; `get("a", 7)` returns the default `7`. -/
theorem claim_C10_witness :
    getitemRaw (Node.dir (Entries.cons ['a', '.'] (Node.file (some 3) false)
        Entries.nil)) ['a'] (some 7) = Except.ok (some 7) :=
  claim_C10_open_failure_default _ ['a'] (some 7) (some 3) rfl

/-! ### Claim C8: file-handle traces

`_getitem` runs `file = open(path, 'rb'); obj = pickle.load(file);
file.close()` with no `try/finally` around the load, and `__setitem__` runs
`file = open(path, 'wb'); pickle.dump(object, file, self.protocol);
file.close()` likewise.  The traces below record the handle events each run
performs, following that control flow: `open` contributes `opened` only when
it succeeds (a failed `open` raises before a handle exists and is caught or
propagated), and `closed` is reached only if the load/dump did not raise. -/

/-- A file-handle event performed by one read or write operation. -/
inductive HEvent : Type where
  | opened : HEvent
  | closed : HEvent
deriving DecidableEq

/-- Handle events of one `_getitem` run: `open` succeeds iff the path
resolves to a readable regular file; `pickle.load` raises on a corrupt blob,
in which case `file.close()` is never executed. -/
def getHandleTrace {α : Type} (root : Node α) (key : Str) : List HEvent :=
  match root.resolve (keyPath key) with
  | some (Node.file blob true) =>
    match blob with
    | some _ => [HEvent.opened, HEvent.closed]
    | none => [HEvent.opened]
  | _ => []

/-- Handle events of one `__setitem__` run: if the directory walk or the
`open` fails, no handle exists; otherwise `dumpOk` tells whether
`pickle.dump` succeeded (it raises on unpicklable objects), and
`file.close()` runs only if it did. -/
def putHandleTrace {α : Type} (root : Node α) (key : Str) (v : α)
    (dumpOk : Bool) : List HEvent :=
  match setitem root key v with
  | Except.ok _ => if dumpOk then [HEvent.opened, HEvent.closed] else [HEvent.opened]
  | Except.error _ => []

/-- Every opened handle in the trace was closed. -/
def balancedB (t : List HEvent) : Bool :=
  t.count HEvent.closed == t.count HEvent.opened

/-- Did the `Except` computation succeed? -/
def isOkB {ε β : Type} : Except ε β → Bool
  | Except.ok _ => true
  | Except.error _ => false

/-- The terminal file of `key` exists, is readable, and holds a corrupt
blob — exactly the situation in which `pickle.load` raises in `_getitem`. -/
def corruptReadableAt {α : Type} (root : Node α) (key : Str) : Bool :=
  match root.resolve (keyPath key) with
  | some (Node.file none true) => true
  | _ => false

/-- C8 is FALSE as stated: the read path does not release its file handle on
every exit path.  Concrete counterexample: the store holds a readable but
corrupt file `"a."`; `get("a", d)` opens the handle, `pickle.load` raises,
and `file.close()` is skipped — the trace is `[opened]` with no `closed`. -/
theorem claim_C8_counterexample :
    getHandleTrace (Node.dir (Entries.cons ['a', '.']
        (Node.file (none : Option Nat) true) Entries.nil)) ['a']
      = [HEvent.opened]
    ∧ balancedB (getHandleTrace (Node.dir (Entries.cons ['a', '.']
        (Node.file (none : Option Nat) true) Entries.nil)) ['a']) = false :=
  ⟨rfl, rfl⟩

/-- C8 amended: `get` releases its handle on the success path and acquires
none when `open` fails (absent key, unreadable file, or directory), but a
deserialization failure strikes between `open` and `close`, leaking the
handle: the read trace is balanced exactly when the terminal file is not a
readable corrupt blob.  Symmetrically `put` releases its handle exactly when
`pickle.dump` does not raise (given that the write got as far as opening). -/
theorem claim_C8_amended_handle_release {α : Type} (s : Node α) (key : Str)
    (v : α) (dumpOk : Bool) :
    (balancedB (getHandleTrace s key) = true ↔ corruptReadableAt s key = false)
    ∧ (balancedB (putHandleTrace s key v dumpOk) = true
        ↔ (isOkB (setitem s key v) = true → dumpOk = true)) := by
  constructor
  · unfold getHandleTrace corruptReadableAt
    cases hres : s.resolve (keyPath key) with
    | none => simp [balancedB]
    | some n =>
      cases n with
      | dir es => simp [balancedB]
      | file blob readable =>
        cases readable with
        | false => simp [balancedB]
        | true =>
          cases blob with
          | some v0 => simp [balancedB, List.count_cons, List.count_nil]
          | none => simp [balancedB, List.count_cons, List.count_nil]
  · unfold putHandleTrace isOkB
    cases hput : setitem s key v with
    | ok s' =>
      cases dumpOk with
      | true => simp [balancedB, List.count_cons, List.count_nil]
      | false => simp [balancedB, List.count_cons, List.count_nil]
    | error e => simp [balancedB]

/-! ### Well-formedness and frame lemmas for resolution, put and delete -/

theorem wfStore_of_wfRoot {α : Type} (s : Node α) (h : wfRoot s = true) :
    s.wfStore = true := by
  cases s with
  | file b r => simp [wfRoot] at h
  | dir es => exact h

theorem resolve_wf {α : Type} (p : List Str) (n m : Node α) (hwf : n.wfStore = true)
    (h : n.resolve p = some m) : m.wfStore = true := by
  induction p generalizing n with
  | nil =>
    simp only [Node.resolve, Option.some.injEq] at h
    exact h ▸ hwf
  | cons x q ih =>
    cases n with
    | file b r => simp [Node.resolve] at h
    | dir es =>
      simp only [Node.resolve] at h
      cases hl : lookupEntry es x with
      | none => rw [hl] at h; cases h
      | some child =>
        rw [hl] at h
        exact ih child (wf_lookup es x child hwf hl).1 h

theorem lookup_removeEntry_wf {α : Type} (es : Entries α) (name k : Str)
    (hwf : wfEntries es = true) :
    lookupEntry (removeEntry es name) k
      = if k = name then none else lookupEntry es k := by
  induction es using entriesInd with
  | hnil => simp [removeEntry, lookupEntry]
  | hcons k' v rest ih =>
    simp only [wfEntries, Bool.and_eq_true] at hwf
    by_cases hk' : k' = name
    · subst hk'
      simp only [removeEntry, if_pos rfl]
      by_cases hk : k = k'
      · subst hk
        rw [if_pos rfl]
        exact Option.isNone_iff_eq_none.mp hwf.1.2
      · rw [if_neg hk]
        have hk2 : ¬ k' = k := fun hh => hk hh.symm
        simp [lookupEntry, hk2]
    · simp only [removeEntry, if_neg hk']
      by_cases hkk : k' = k
      · subst hkk
        have hkname : ¬ k' = name := hk'
        simp [lookupEntry, if_neg hkname]
      · simp only [lookupEntry, if_neg hkk, ih hwf.2]

theorem removeFileAt_wf {α : Type} (q : List Str) (n n' : Node α)
    (h : n.removeFileAt q = some n') (hwf : n.wfStore = true) :
    n'.wfStore = true ∧ ∃ es es₂, n = Node.dir es ∧ n' = Node.dir es₂ := by
  induction q generalizing n n' with
  | nil => simp [Node.removeFileAt] at h
  | cons name rest ih =>
    cases n with
    | file b r => simp [Node.removeFileAt] at h
    | dir es =>
      cases rest with
      | nil =>
        simp only [Node.removeFileAt] at h
        cases hl : lookupEntry es name with
        | none => rw [hl] at h; cases h
        | some child =>
          rw [hl] at h
          cases child with
          | dir des => cases h
          | file blob r =>
            simp only [Option.some.injEq] at h
            refine ⟨?_, es, removeEntry es name, rfl, h.symm⟩
            rw [← h]
            exact wfEntries_removeEntry es name hwf
      | cons r rs =>
        simp only [Node.removeFileAt] at h
        cases hl : lookupEntry es name with
        | none => rw [hl] at h; cases h
        | some child =>
          simp only [hl] at h
          cases hm : child.removeFileAt (r :: rs) with
          | none => rw [hm] at h; cases h
          | some c =>
            simp only [hm, Option.some.injEq] at h
            obtain ⟨hcwf, es₂, es₂', hchild, hc⟩ :=
              ih child c hm (wf_lookup es name child hwf hl).1
            refine ⟨?_, es, setEntry es name c, rfl, h.symm⟩
            rw [← h]
            apply wfEntries_setEntry es name c hwf ?_ hcwf
            have hok := (wf_lookup es name child hwf hl).2
            rw [hchild] at hok
            rw [hc]
            simpa [entryNameOk] using hok

theorem removeFileAt_file_frame {α : Type} (q : List Str) (n n' : Node α)
    (hwf : n.wfStore = true) (h : n.removeFileAt q = some n')
    (p : List Str) (b : Option α) (r : Bool)
    (hres : n'.resolve p = some (Node.file b r)) :
    n.resolve p = some (Node.file b r) := by
  induction q generalizing n n' p with
  | nil => simp [Node.removeFileAt] at h
  | cons name rest ih =>
    cases n with
    | file bb rr => simp [Node.removeFileAt] at h
    | dir es =>
      cases rest with
      | nil =>
        simp only [Node.removeFileAt] at h
        cases hl : lookupEntry es name with
        | none => rw [hl] at h; cases h
        | some child =>
          rw [hl] at h
          cases child with
          | dir des => cases h
          | file blob rr =>
            simp only [Option.some.injEq] at h
            rw [← h] at hres
            cases p with
            | nil => simp [Node.resolve] at hres
            | cons x pq =>
              simp only [Node.resolve] at hres ⊢
              rw [lookup_removeEntry_wf es name x hwf] at hres
              by_cases hx : x = name
              · rw [if_pos hx] at hres; cases hres
              · rw [if_neg hx] at hres; exact hres
      | cons rr rs =>
        simp only [Node.removeFileAt] at h
        cases hl : lookupEntry es name with
        | none => rw [hl] at h; cases h
        | some child =>
          simp only [hl] at h
          cases hm : child.removeFileAt (rr :: rs) with
          | none => rw [hm] at h; cases h
          | some c =>
            simp only [hm, Option.some.injEq] at h
            rw [← h] at hres
            cases p with
            | nil => simp [Node.resolve] at hres
            | cons x pq =>
              simp only [Node.resolve] at hres ⊢
              by_cases hx : x = name
              · subst hx
                rw [lookup_setEntry_self] at hres
                rw [hl]
                exact ih child c (wf_lookup es x child hwf hl).1 hm pq hres
              · rw [lookup_setEntry_ne es name x c hx] at hres
                exact hres

theorem rmdirAt_dir {α : Type} (es : Entries α) (q : List Str) :
    ∃ es', (Node.dir es).rmdirAt q = Node.dir es' := by
  cases q with
  | nil => exact ⟨es, rfl⟩
  | cons name rest =>
    cases rest with
    | nil => exact ⟨removeEntry es name, rfl⟩
    | cons r rs =>
      simp only [Node.rmdirAt]
      cases hl : lookupEntry es name with
      | some child => exact ⟨setEntry es name (child.rmdirAt (r :: rs)), rfl⟩
      | none => exact ⟨es, rfl⟩

theorem rmdirAt_wf {α : Type} (q : List Str) (n : Node α) (hwf : n.wfStore = true) :
    (n.rmdirAt q).wfStore = true := by
  induction q generalizing n with
  | nil => simpa [Node.rmdirAt] using hwf
  | cons name rest ih =>
    cases n with
    | file b r => simpa [Node.rmdirAt] using hwf
    | dir es =>
      cases rest with
      | nil =>
        show wfEntries (removeEntry es name) = true
        exact wfEntries_removeEntry es name hwf
      | cons r rs =>
        simp only [Node.rmdirAt]
        cases hl : lookupEntry es name with
        | none => exact hwf
        | some child =>
          obtain ⟨hcwf, hok⟩ := wf_lookup es name child hwf hl
          show wfEntries (setEntry es name (child.rmdirAt (r :: rs))) = true
          apply wfEntries_setEntry es name _ hwf ?_ (ih child hcwf)
          cases child with
          | file blob rr => simpa [Node.rmdirAt, entryNameOk] using hok
          | dir des =>
            obtain ⟨des', hdes'⟩ := rmdirAt_dir des (r :: rs)
            rw [hdes']
            simpa [entryNameOk] using hok

theorem rmdirAt_file_frame {α : Type} (q : List Str) (n : Node α)
    (hwf : n.wfStore = true) (p : List Str) (b : Option α) (r : Bool)
    (hres : (n.rmdirAt q).resolve p = some (Node.file b r)) :
    n.resolve p = some (Node.file b r) := by
  induction q generalizing n p with
  | nil => simpa [Node.rmdirAt] using hres
  | cons name rest ih =>
    cases n with
    | file bb rr => simpa [Node.rmdirAt] using hres
    | dir es =>
      cases rest with
      | nil =>
        have hres' : (Node.dir (removeEntry es name)).resolve p
            = some (Node.file b r) := hres
        cases p with
        | nil => simp [Node.resolve] at hres'
        | cons x pq =>
          simp only [Node.resolve] at hres' ⊢
          rw [lookup_removeEntry_wf es name x hwf] at hres'
          by_cases hx : x = name
          · rw [if_pos hx] at hres'; cases hres'
          · rw [if_neg hx] at hres'; exact hres'
      | cons rr rs =>
        simp only [Node.rmdirAt] at hres
        cases hl : lookupEntry es name with
        | none => rw [hl] at hres; exact hres
        | some child =>
          rw [hl] at hres
          cases p with
          | nil => simp [Node.resolve] at hres
          | cons x pq =>
            simp only [Node.resolve] at hres ⊢
            by_cases hx : x = name
            · subst hx
              rw [lookup_setEntry_self] at hres
              rw [hl]
              exact ih child (wf_lookup es x child hwf hl).1 pq hres
            · rw [lookup_setEntry_ne es name x _ hx] at hres
              exact hres

theorem delitem_eq {α : Type} (root : Node α) (key : Str) :
    delitem root key
      = match root.removeFileAt (keyPath key) with
        | none => root
        | some root' => pruneLoop root' (keyPath key) ((keyPath key).length - 1) :=
  rfl

theorem pruneLoop_wf {α : Type} (pt : Nat) (path : List Str) (n : Node α)
    (hwf : n.wfStore = true) : (pruneLoop n path pt).wfStore = true := by
  induction pt generalizing n with
  | zero => simpa [pruneLoop] using hwf
  | succ pt ih =>
    simp only [pruneLoop]
    split
    · exact ih _ (rmdirAt_wf _ _ hwf)
    · exact hwf

theorem pruneLoop_dir {α : Type} (pt : Nat) (path : List Str) (es : Entries α) :
    ∃ es', pruneLoop (Node.dir es) path pt = Node.dir es' := by
  induction pt generalizing es with
  | zero => exact ⟨es, rfl⟩
  | succ pt ih =>
    simp only [pruneLoop]
    split
    · obtain ⟨es₂, h₂⟩ := rmdirAt_dir es (path.take (pt + 1))
      rw [h₂]
      exact ih es₂
    · exact ⟨es, rfl⟩

theorem pruneLoop_file_frame {α : Type} (pt : Nat) (path : List Str) (n : Node α)
    (hwf : n.wfStore = true) (p : List Str) (b : Option α) (r : Bool)
    (hres : (pruneLoop n path pt).resolve p = some (Node.file b r)) :
    n.resolve p = some (Node.file b r) := by
  induction pt generalizing n with
  | zero => simpa [pruneLoop] using hres
  | succ pt ih =>
    simp only [pruneLoop] at hres
    split at hres
    · exact rmdirAt_file_frame _ _ hwf _ _ _
        (ih _ (rmdirAt_wf _ _ hwf) hres)
    · exact hres

theorem delitem_file_frame {α : Type} (s : Node α) (k' : Str)
    (hwf : s.wfStore = true) (p : List Str) (b : Option α) (r : Bool)
    (hres : (delitem s k').resolve p = some (Node.file b r)) :
    s.resolve p = some (Node.file b r) := by
  rw [delitem_eq] at hres
  cases hrm : s.removeFileAt (keyPath k') with
  | none => rw [hrm] at hres; exact hres
  | some s'' =>
    simp only [hrm] at hres
    have hwf'' := (removeFileAt_wf _ _ _ hrm hwf).1
    exact removeFileAt_file_frame _ _ _ hwf hrm p b r
      (pruneLoop_file_frame _ _ _ hwf'' _ _ _ hres)

theorem delitem_present_frame {α : Type} (s : Node α) (k' key : Str)
    (hwf : s.wfStore = true) (habs : presentB s key = false) :
    presentB (delitem s k') key = false := by
  unfold presentB Node.isFileAt at habs ⊢
  cases hres : (delitem s k').resolve (keyPath key) with
  | none => rfl
  | some m =>
    cases m with
    | dir _ => rfl
    | file b r =>
      rw [delitem_file_frame s k' hwf _ b r hres] at habs
      simp at habs

theorem delitem_wfRoot {α : Type} (s : Node α) (k' : Str)
    (hs : wfRoot s = true) : wfRoot (delitem s k') = true := by
  cases s with
  | file b r => simp [wfRoot] at hs
  | dir es =>
    rw [delitem_eq]
    cases hrm : (Node.dir es).removeFileAt (keyPath k') with
    | none => exact hs
    | some s'' =>
      obtain ⟨hwf'', es₀, es₂, _, hshape⟩ := removeFileAt_wf _ _ _ hrm hs
      subst hshape
      simp only [hrm]
      obtain ⟨es₃, h₃⟩ := pruneLoop_dir ((keyPath k').length - 1) (keyPath k') es₂
      rw [h₃]
      have hwf₃ := pruneLoop_wf ((keyPath k').length - 1) (keyPath k') (Node.dir es₂) hwf''
      rw [h₃] at hwf₃
      exact hwf₃

theorem setitem_wfRoot {α : Type} (s s' : Node α) (key : Str) (v : α)
    (hs : wfRoot s = true) (hk : wfKeyB key = true)
    (h : setitem s key v = Except.ok s') : wfRoot s' = true := by
  obtain ⟨es', h1, _, h3⟩ := setitem_ok s key v hs hk
  rw [h] at h1
  have : s' = Node.dir es' := by
    simpa using h1
  rw [this]
  exact h3

theorem putAt_file_frame {α : Type} (dirs : List Str) (n n' : Node α)
    (fname : Str) (b : Option α)
    (hput : n.putAt dirs fname b = Except.ok n') (p : List Str)
    (b' : Option α) (r' : Bool) (hres : n'.resolve p = some (Node.file b' r')) :
    n.resolve p = some (Node.file b' r')
      ∨ (p = dirs ++ [fname] ∧ b' = b ∧ r' = true) := by
  induction dirs generalizing n n' p with
  | nil =>
    cases n with
    | file bb rr => simp [Node.putAt] at hput
    | dir es =>
      simp only [Node.putAt] at hput
      have hn' : n' = Node.dir (setEntry es fname (Node.file b true)) := by
        cases hl : lookupEntry es fname with
        | none => rw [hl] at hput; simpa using hput.symm
        | some child =>
          rw [hl] at hput
          cases child with
          | file blob rr => simpa using hput.symm
          | dir des => cases hput
      subst hn'
      cases p with
      | nil => simp [Node.resolve] at hres
      | cons x pq =>
        simp only [Node.resolve] at hres ⊢
        by_cases hx : x = fname
        · subst hx
          rw [lookup_setEntry_self] at hres
          cases pq with
          | nil =>
            simp only [Node.resolve, Option.some.injEq] at hres
            right
            refine ⟨rfl, ?_, ?_⟩
            · cases hres; rfl
            · cases hres; rfl
          | cons y ys => simp [Node.resolve] at hres
        · rw [lookup_setEntry_ne es fname x _ hx] at hres
          left
          exact hres
  | cons dd ds ih =>
    cases n with
    | file bb rr => simp [Node.putAt] at hput
    | dir es =>
      simp only [Node.putAt] at hput
      cases hm : ((lookupEntry es dd).getD (Node.dir Entries.nil)).putAt ds fname b with
      | error e => rw [hm] at hput; cases hput
      | ok c =>
        rw [hm] at hput
        have hn' : n' = Node.dir (setEntry es dd c) := by
          simpa using hput.symm
        subst hn'
        cases p with
        | nil => simp [Node.resolve] at hres
        | cons x pq =>
          simp only [Node.resolve] at hres ⊢
          by_cases hx : x = dd
          · subst hx
            rw [lookup_setEntry_self] at hres
            rcases ih _ _ hm pq hres with hleft | ⟨hp, hb, hr⟩
            · cases hl : lookupEntry es x with
              | some child =>
                rw [hl] at hleft
                left
                exact hleft
              | none =>
                rw [hl] at hleft
                simp only [Option.getD_none] at hleft
                cases pq with
                | nil => simp [Node.resolve] at hleft
                | cons y ys => simp [Node.resolve, lookupEntry] at hleft
            · right
              exact ⟨by rw [hp, List.cons_append], hb, hr⟩
          · rw [lookup_setEntry_ne es dd x _ hx] at hres
            left
            exact hres

theorem present_after_setitem {α : Type} (s s' : Node α) (k' key : Str) (v : α)
    (hput : setitem s k' v = Except.ok s') (hne : key ≠ k')
    (habs : presentB s key = false) : presentB s' key = false := by
  unfold presentB Node.isFileAt at habs ⊢
  cases hres : s'.resolve (keyPath key) with
  | none => rfl
  | some m =>
    cases m with
    | dir _ => rfl
    | file b' r' =>
      rcases putAt_file_frame ((splitOnDot k').dropLast) s s'
          ((splitOnDot k').getLastD [] ++ ['.']) (some v) hput
          (keyPath key) b' r' hres with hleft | ⟨hp, _, _⟩
      · rw [hleft] at habs
        simp at habs
      · exact absurd (keyPath_injective key k' hp) hne

theorem presentB_empty (α : Type) (key : Str) :
    presentB (emptyStore α) key = false := by
  unfold presentB Node.isFileAt
  cases hkp : keyPath key with
  | nil =>
    exact absurd hkp (by simp [keyPath])
  | cons a as =>
    simp [emptyStore, Node.resolve, lookupEntry]

/-! ### Invariants of operation sequences -/

theorem runOps_wfRoot {α : Type} (ops : List (Op α)) (s0 s : Node α)
    (hwf : wfRoot s0 = true)
    (hops : ops.all (fun op => wfKeyB op.key) = true)
    (hrun : runOps s0 ops = Except.ok s) : wfRoot s = true := by
  induction ops generalizing s0 with
  | nil =>
    simp only [runOps, Except.ok.injEq] at hrun
    exact hrun ▸ hwf
  | cons op rest ih =>
    simp only [List.all_cons, Bool.and_eq_true] at hops
    simp only [runOps] at hrun
    cases ha : applyOp s0 op with
    | error e => rw [ha] at hrun; cases hrun
    | ok s1 =>
      rw [ha] at hrun
      have h1 : wfRoot s1 = true := by
        cases op with
        | put k v => exact setitem_wfRoot s0 s1 k v hwf hops.1 ha
        | del k =>
          have : s1 = delitem s0 k := by
            simpa [applyOp] using ha.symm
          rw [this]
          exact delitem_wfRoot s0 k hwf
      exact ih s1 h1 hops.2 hrun

theorem runOps_not_written_absent {α : Type} (ops : List (Op α)) (s0 s : Node α)
    (key : Str) (hwf : wfRoot s0 = true) (habs : presentB s0 key = false)
    (hops : ops.all (fun op => wfKeyB op.key) = true)
    (hnw : ops.all (fun op => !opWritesKey op key) = true)
    (hrun : runOps s0 ops = Except.ok s) : presentB s key = false := by
  induction ops generalizing s0 with
  | nil =>
    simp only [runOps, Except.ok.injEq] at hrun
    exact hrun ▸ habs
  | cons op rest ih =>
    simp only [List.all_cons, Bool.and_eq_true] at hops hnw
    simp only [runOps] at hrun
    cases ha : applyOp s0 op with
    | error e => rw [ha] at hrun; cases hrun
    | ok s1 =>
      rw [ha] at hrun
      have h1wf : wfRoot s1 = true := by
        cases op with
        | put k v => exact setitem_wfRoot s0 s1 k v hwf hops.1 ha
        | del k =>
          have : s1 = delitem s0 k := by
            simpa [applyOp] using ha.symm
          rw [this]
          exact delitem_wfRoot s0 k hwf
      have h1abs : presentB s1 key = false := by
        cases op with
        | put k v =>
          have hne : key ≠ k := by
            have := hnw.1
            simp only [opWritesKey, Bool.not_eq_true'] at this
            exact fun hh => (of_decide_eq_false this) hh.symm
          exact present_after_setitem s0 s1 k key v ha hne habs
        | del k =>
          have : s1 = delitem s0 k := by
            simpa [applyOp] using ha.symm
          rw [this]
          exact delitem_present_frame s0 k key (wfStore_of_wfRoot s0 hwf) habs
      exact ih s1 h1wf h1abs hops.2 hnw.2 hrun

/-! ### Claim C6 -/

/-- C6: a key never written during a run of well-formed-key operations from
a fresh store has no terminal file, so `get(K, default)` returns the
supplied default and the index-style read `cache[K]` returns the not-found
sentinel `None`. -/
theorem claim_C6_never_written_default {α : Type} (ops : List (Op α))
    (s : Node α) (key : Str) (d : Option α)
    (hops : ops.all (fun op => wfKeyB op.key) = true)
    (hnw : ops.all (fun op => !opWritesKey op key) = true)
    (hrun : runOps (emptyStore α) ops = Except.ok s) :
    getitemRaw s key d = Except.ok d ∧ getitemIndex s key = Except.ok none := by
  have habs := runOps_not_written_absent ops (emptyStore α) s key
    (wfRoot_emptyStore α) (presentB_empty α key) hops hnw hrun
  exact ⟨getitemRaw_of_absent s key d habs, getitemRaw_of_absent s key none habs⟩

/-- C6 witness: after `put("a.b", 1)` and a no-op `delete("x")`, the key
`"b"` was never written: `get("b", 9)` returns `9` and `cache["b"]` returns
the sentinel `None`. -/
theorem claim_C6_witness :
    getitemRaw (Node.dir (Entries.cons ['a'] (Node.dir (Entries.cons ['b', '.']
        (Node.file (some 1) true) Entries.nil)) Entries.nil)) ['b'] (some 9)
      = Except.ok (some 9)
    ∧ getitemIndex (Node.dir (Entries.cons ['a'] (Node.dir (Entries.cons
        ['b', '.'] (Node.file (some 1) true) Entries.nil)) Entries.nil)) ['b']
      = Except.ok none :=
  claim_C6_never_written_default
    [Op.put ['a', '.', 'b'] 1, Op.del ['x']] _ ['b'] (some 9)
    (by decide) (by decide) rfl

/-! ### Enumeration: characterising `_readkeys` -/

mutual

/-- Specification helper: the relative paths of all regular files in the
tree, as (directory segments, marker-stripped leaf name) pairs, in the
depth-first listing order that `_readkeys` walks. -/
def Node.filePairs {α : Type} : Node α → List (List Str × Str)
  | Node.file _ _ => []
  | Node.dir es => entriesPairs es

/-- `Node.filePairs` on a directory listing. -/
def entriesPairs {α : Type} : Entries α → List (List Str × Str)
  | Entries.nil => []
  | Entries.cons name (Node.file _ _) rest =>
    ([], name.dropLast) :: entriesPairs rest
  | Entries.cons name (Node.dir des) rest =>
    (entriesPairs des).map (fun p => (name :: p.1, p.2)) ++ entriesPairs rest

end

theorem noDot_of_goodName (s : Str) (h : goodName s = true) : noDot s = true := by
  simp only [goodName, Bool.and_eq_true] at h
  exact h.1.2

theorem dropLast_append_of_getLast? (l : Str) (c : Char)
    (h : l.getLast? = some c) : l.dropLast ++ [c] = l := by
  have hne : l ≠ [] := by
    intro hl
    rw [hl] at h
    cases h
  have hd : l.getLastD '?' = c := by
    rw [List.getLastD_eq_getLast?, h]
    rfl
  rw [← hd]
  exact dropLast_append_getLastD l '?' hne

theorem readkeys_renders_filePairs {α : Type} :
    (∀ n : Node α, n.wfStore = true → ∀ (path : List Str) (ks : List Str),
      n.readkeysNode path ks
        = ks ++ (n.filePairs).map (fun p => joinKey (path ++ p.1) p.2))
    ∧ (∀ es : Entries α, wfEntries es = true → ∀ (path : List Str) (ks : List Str),
      readkeysEntries es path ks
        = ks ++ (entriesPairs es).map (fun p => joinKey (path ++ p.1) p.2)) := by
  apply nodeEntriesInd
  · intro blob readable _ path ks
    simp [Node.readkeysNode, Node.filePairs]
  · intro es hQ hwf path ks
    exact hQ hwf path ks
  · intro _ path ks
    simp [readkeysEntries, entriesPairs]
  · intro name child rest hP hQ hwf path ks
    simp only [wfEntries, Bool.and_eq_true] at hwf
    obtain ⟨⟨⟨hok, hcwf⟩, _⟩, hrwf⟩ := hwf
    cases child with
    | file blob readable =>
      have hmark : name.getLast? = some '.' := by
        simp only [entryNameOk, Bool.and_eq_true, beq_iff_eq] at hok
        exact hok.1
      simp only [readkeysEntries, if_pos hmark, entriesPairs]
      rw [hQ hrwf path (ks ++ [joinKey path name.dropLast])]
      simp [List.append_assoc]
    | dir des =>
      have hgood : goodName name = true := by
        simpa [entryNameOk] using hok
      have hmark : ¬ name.getLast? = some '.' := goodName_getLast?_ne name hgood
      simp only [readkeysEntries, if_neg hmark, entriesPairs]
      rw [hP hcwf (path ++ [name]) ks, hQ hrwf path _]
      simp [List.map_append, List.map_map, Function.comp, List.append_assoc,
        Node.filePairs]

theorem pairs_head_absent {α : Type} (es : Entries α) (d : Str)
    (hl : lookupEntry es d = none) (ds' : List Str) (leaf : Str) :
    (d :: ds', leaf) ∉ entriesPairs es := by
  induction es using entriesInd with
  | hnil => simp [entriesPairs]
  | hcons name child rest ih =>
    simp only [lookupEntry] at hl
    split at hl
    · exact absurd hl (by simp)
    · rename_i hname
      cases child with
      | file blob r =>
        simp only [entriesPairs, List.mem_cons]
        rintro (h | h)
        · simp at h
        · exact ih hl h
      | dir des =>
        simp only [entriesPairs, List.mem_append, List.mem_map]
        rintro (⟨p, hp, hpe⟩ | h)
        · simp only [Prod.mk.injEq, List.cons.injEq] at hpe
          exact hname hpe.1.1
        · exact ih hl h

theorem isFileAt_dir_cons {α : Type} (name : Str) (child : Node α)
    (rest : Entries α) (x : Str) (q : List Str) :
    (Node.dir (Entries.cons name child rest)).isFileAt (x :: q)
      = if name = x then child.isFileAt q
        else (Node.dir rest).isFileAt (x :: q) := by
  by_cases h : name = x
  · simp [Node.isFileAt, Node.resolve, lookupEntry, h]
  · simp [Node.isFileAt, Node.resolve, lookupEntry, h]

theorem isFileAt_file_append {α : Type} (b : Option α) (r : Bool)
    (l : List Str) (x : Str) : (Node.file b r).isFileAt (l ++ [x]) = false := by
  cases l <;> rfl

theorem isFileAt_dirnil_append {α : Type} (l : List Str) (x : Str) :
    (Node.dir (Entries.nil : Entries α)).isFileAt (l ++ [x]) = false := by
  cases l with
  | nil => rfl
  | cons a as => simp [Node.isFileAt, Node.resolve, lookupEntry]

theorem filePairs_iff_isFileAt {α : Type} :
    (∀ n : Node α, n.wfStore = true → ∀ (ds : List Str) (leaf : Str),
      ((ds, leaf) ∈ n.filePairs ↔ n.isFileAt (ds ++ [leaf ++ ['.']]) = true))
    ∧ (∀ es : Entries α, wfEntries es = true → ∀ (ds : List Str) (leaf : Str),
      ((ds, leaf) ∈ entriesPairs es
        ↔ (Node.dir es).isFileAt (ds ++ [leaf ++ ['.']]) = true)) := by
  apply nodeEntriesInd
  · intro blob r _ ds leaf
    rw [isFileAt_file_append]
    simp [Node.filePairs]
  · intro es hQ hwf ds leaf
    exact hQ hwf ds leaf
  · intro _ ds leaf
    rw [isFileAt_dirnil_append]
    simp [entriesPairs]
  · intro name child rest hP hQ hwf ds leaf
    simp only [wfEntries, Bool.and_eq_true] at hwf
    obtain ⟨⟨⟨hok, hcwf⟩, habs⟩, hrwf⟩ := hwf
    have habs' : lookupEntry rest name = none := Option.isNone_iff_eq_none.mp habs
    cases ds with
    | nil =>
      rw [List.nil_append, isFileAt_dir_cons name child rest (leaf ++ ['.']) []]
      cases child with
      | file blob r =>
        simp only [entryNameOk, Bool.and_eq_true, beq_iff_eq] at hok
        obtain ⟨hmark, hgoodstr⟩ := hok
        have hname : name.dropLast ++ ['.'] = name :=
          dropLast_append_of_getLast? name '.' hmark
        by_cases hleaf : leaf = name.dropLast
        · subst hleaf
          rw [if_pos hname.symm]
          simp [entriesPairs, Node.isFileAt, Node.resolve]
        · have hne : ¬ name = leaf ++ ['.'] := by
            intro hcontra
            apply hleaf
            have := congrArg List.dropLast hcontra
            simpa [List.dropLast_concat] using this.symm
          rw [if_neg hne]
          have hrest := hQ hrwf [] leaf
          rw [List.nil_append] at hrest
          rw [← hrest]
          simp only [entriesPairs, List.mem_cons, Prod.mk.injEq]
          constructor
          · rintro (⟨_, h2⟩ | h)
            · exact absurd h2 hleaf
            · exact h
          · intro h
            exact Or.inr h
      | dir des =>
        have hgood : goodName name = true := by
          simpa [entryNameOk] using hok
        have hne : ¬ name = leaf ++ ['.'] := by
          intro hcontra
          rw [hcontra] at hgood
          rw [goodName_append_dot] at hgood
          cases hgood
        rw [if_neg hne]
        have hrest := hQ hrwf [] leaf
        rw [List.nil_append] at hrest
        rw [← hrest]
        simp only [entriesPairs, List.mem_append, List.mem_map]
        constructor
        · rintro (⟨p, hp, hpe⟩ | h)
          · simp at hpe
          · exact h
        · intro h
          exact Or.inr h
    | cons d ds' =>
      rw [List.cons_append,
        isFileAt_dir_cons name child rest d (ds' ++ [leaf ++ ['.']])]
      by_cases hx : name = d
      · subst hx
        rw [if_pos rfl]
        cases child with
        | file blob r =>
          rw [isFileAt_file_append]
          simp only [entriesPairs, List.mem_cons, Prod.mk.injEq]
          constructor
          · rintro (⟨h1, _⟩ | h)
            · cases h1
            · exact absurd h (pairs_head_absent rest name habs' ds' leaf)
          · intro h
            cases h
        | dir des =>
          have hchild := hP hcwf ds' leaf
          rw [← hchild]
          simp only [Node.filePairs, entriesPairs, List.mem_append, List.mem_map]
          constructor
          · rintro (⟨p, hp, hpe⟩ | h)
            · simp only [Prod.mk.injEq, List.cons.injEq] at hpe
              obtain ⟨⟨_, hp1⟩, hp2⟩ := hpe
              have : p = (ds', leaf) := Prod.ext hp1 hp2
              exact this ▸ hp
            · exact absurd h (pairs_head_absent rest name habs' ds' leaf)
          · intro h
            exact Or.inl ⟨(ds', leaf), h, rfl⟩
      · rw [if_neg hx]
        have hrest := hQ hrwf (d :: ds') leaf
        rw [List.cons_append] at hrest
        rw [← hrest]
        cases child with
        | file blob r =>
          simp only [entriesPairs, List.mem_cons, Prod.mk.injEq]
          constructor
          · rintro (⟨h1, _⟩ | h)
            · cases h1
            · exact h
          · intro h
            exact Or.inr h
        | dir des =>
          simp only [entriesPairs, List.mem_append, List.mem_map]
          constructor
          · rintro (⟨p, hp, hpe⟩ | h)
            · simp only [Prod.mk.injEq, List.cons.injEq] at hpe
              exact absurd hpe.1.1 hx
            · exact h
          · intro h
            exact Or.inr h

theorem filePairs_good {α : Type} :
    (∀ n : Node α, n.wfStore = true → ∀ pr ∈ n.filePairs,
      pr.1.all goodName = true ∧ goodName pr.2 = true)
    ∧ (∀ es : Entries α, wfEntries es = true → ∀ pr ∈ entriesPairs es,
      pr.1.all goodName = true ∧ goodName pr.2 = true) := by
  apply nodeEntriesInd
  · intro blob r _ pr hpr
    simp [Node.filePairs] at hpr
  · intro es hQ hwf pr hpr
    exact hQ hwf pr hpr
  · intro _ pr hpr
    simp [entriesPairs] at hpr
  · intro name child rest hP hQ hwf pr hpr
    simp only [wfEntries, Bool.and_eq_true] at hwf
    obtain ⟨⟨⟨hok, hcwf⟩, _⟩, hrwf⟩ := hwf
    cases child with
    | file blob r =>
      simp only [entriesPairs, List.mem_cons] at hpr
      rcases hpr with h | h
      · subst h
        simp only [entryNameOk, Bool.and_eq_true, beq_iff_eq] at hok
        exact ⟨rfl, hok.2⟩
      · exact hQ hrwf pr h
    | dir des =>
      simp only [entriesPairs, List.mem_append, List.mem_map] at hpr
      rcases hpr with ⟨p, hp, hpe⟩ | h
      · obtain ⟨h1, h2⟩ := hP hcwf p hp
        have hgood : goodName name = true := by
          simpa [entryNameOk] using hok
        rw [← hpe]
        exact ⟨by simp [List.all_cons, hgood, h1], h2⟩
      · exact hQ hrwf pr h

theorem getLastD_concat (l : List Str) (x d : Str) : (l ++ [x]).getLastD d = x := by
  rw [List.getLastD_eq_getLast?, List.getLast?_concat]
  rfl

theorem keysOf_eq {α : Type} (s : Node α) (hwf : s.wfStore = true) :
    keysOf s = (s.filePairs).map (fun p => joinKey p.1 p.2) := by
  have h := (readkeys_renders_filePairs).1 s hwf [] []
  unfold keysOf
  rw [h]
  simp

theorem keys_iff_present {α : Type} (s : Node α) (hwf : s.wfStore = true)
    (key : Str) : key ∈ keysOf s ↔ presentB s key = true := by
  rw [keysOf_eq s hwf]
  constructor
  · intro h
    obtain ⟨pr, hpr, hkey⟩ := List.mem_map.mp h
    obtain ⟨h1, h2⟩ := (filePairs_good).1 s hwf pr hpr
    have hfile := ((filePairs_iff_isFileAt).1 s hwf pr.1 pr.2).mp (by simpa using hpr)
    have hall : pr.1.all noDot = true :=
      List.all_eq_true.mpr fun x hx =>
        noDot_of_goodName x (List.all_eq_true.mp h1 x hx)
    have hsplit : splitOnDot key = pr.1 ++ [pr.2] := by
      rw [← hkey]
      exact splitOnDot_joinKey pr.1 pr.2 hall (noDot_of_goodName pr.2 h2)
    have hkp : keyPath key = pr.1 ++ [pr.2 ++ ['.']] := by
      unfold keyPath
      rw [hsplit]
      show (pr.1 ++ [pr.2]).dropLast ++ [(pr.1 ++ [pr.2]).getLastD [] ++ ['.']]
        = pr.1 ++ [pr.2 ++ ['.']]
      rw [List.dropLast_concat, getLastD_concat]
    unfold presentB
    rw [hkp]
    exact hfile
  · intro h
    have hpair := ((filePairs_iff_isFileAt).1 s hwf
      (splitOnDot key).dropLast ((splitOnDot key).getLastD [])).mpr h
    apply List.mem_map.mpr
    refine ⟨((splitOnDot key).dropLast, (splitOnDot key).getLastD []), hpair, ?_⟩
    show joinKey (splitOnDot key).dropLast ((splitOnDot key).getLastD []) = key
    rw [joinKey_eq_joinAll,
      dropLast_append_getLastD (splitOnDot key) [] (splitOnDot_ne_nil key),
      joinAll_splitOnDot]

theorem getitemIndex_of_present_wf {α : Type} (s : Node α) (k : Str)
    (hwf : s.wfStore = true) (hp : presentB s k = true) :
    getitemIndex s k = Except.ok (storedAt s k) := by
  unfold presentB Node.isFileAt at hp
  cases hres : s.resolve (keyPath k) with
  | none => rw [hres] at hp; cases hp
  | some m =>
    rw [hres] at hp
    cases m with
    | dir _ => cases hp
    | file blob r =>
      have hmwf := resolve_wf (keyPath k) s _ hwf hres
      simp only [Node.wfStore, Bool.and_eq_true] at hmwf
      obtain ⟨hblob, hr⟩ := hmwf
      obtain ⟨v, hv⟩ := Option.isSome_iff_exists.mp hblob
      subst hv
      subst hr
      unfold getitemIndex getitemRaw storedAt
      rw [hres]

theorem valuesList_ok {α : Type} (s : Node α) (l : List Str)
    (h : ∀ k ∈ l, getitemIndex s k = Except.ok (storedAt s k)) :
    valuesList s l = Except.ok (l.map (fun k => storedAt s k)) := by
  induction l with
  | nil => rfl
  | cons k ks ih =>
    simp only [valuesList, h k (List.mem_cons_self k ks),
      ih (fun k' hk' => h k' (List.mem_cons_of_mem k hk')), List.map_cons]

/-! ### Claim C2 -/

/-- C2: after any finite sequence of puts and deletes of well-formed keys
from a fresh store, `keys()` lists exactly the keys whose terminal file is
present (each reconstructed by joining the directory segments with `'.'` and
stripping the trailing marker), every listed key reads back as its stored
value, and `values()` returns `[self[k] for k in keys()]` in the same order
as `keys()`. -/
theorem claim_C2_enumeration {α : Type} (ops : List (Op α)) (s : Node α)
    (hops : ops.all (fun op => wfKeyB op.key) = true)
    (hrun : runOps (emptyStore α) ops = Except.ok s) :
    (∀ key, key ∈ keysOf s ↔ presentB s key = true)
    ∧ (∀ k ∈ keysOf s, getitemIndex s k = Except.ok (storedAt s k))
    ∧ valuesOf s = Except.ok ((keysOf s).map (fun k => storedAt s k)) := by
  have hwf : wfRoot s = true :=
    runOps_wfRoot ops (emptyStore α) s (wfRoot_emptyStore α) hops hrun
  have hwfs : s.wfStore = true := wfStore_of_wfRoot s hwf
  have hiff := fun key => keys_iff_present s hwfs key
  have hget : ∀ k ∈ keysOf s, getitemIndex s k = Except.ok (storedAt s k) :=
    fun k hk => getitemIndex_of_present_wf s k hwfs ((hiff k).mp hk)
  exact ⟨hiff, hget, valuesList_ok s (keysOf s) hget⟩

/-- C2 witness: the sequence `put("a.b", 1)`, `put("a", 2)`,
`delete("a.b")` leaves exactly the key `"a"` holding `2` (the emptied
directory `a/` was pruned, the file `a.` remains). -/
theorem claim_C2_witness :
    (∀ key, key ∈ keysOf (Node.dir (Entries.cons ['a', '.']
        (Node.file (some 2) true) Entries.nil))
      ↔ presentB (Node.dir (Entries.cons ['a', '.']
        (Node.file (some 2) true) Entries.nil)) key = true)
    ∧ (∀ k ∈ keysOf (Node.dir (Entries.cons ['a', '.']
        (Node.file (some 2) true) Entries.nil)),
        getitemIndex (Node.dir (Entries.cons ['a', '.']
          (Node.file (some 2) true) Entries.nil)) k
          = Except.ok (storedAt (Node.dir (Entries.cons ['a', '.']
            (Node.file (some 2) true) Entries.nil)) k))
    ∧ valuesOf (Node.dir (Entries.cons ['a', '.']
        (Node.file (some 2) true) Entries.nil))
      = Except.ok ((keysOf (Node.dir (Entries.cons ['a', '.']
          (Node.file (some 2) true) Entries.nil))).map
        (fun k => storedAt (Node.dir (Entries.cons ['a', '.']
          (Node.file (some 2) true) Entries.nil)) k)) :=
  claim_C2_enumeration
    [Op.put ['a', '.', 'b'] 1, Op.put ['a'] 2, Op.del ['a', '.', 'b']] _
    (by decide) rfl

end FSCacheModel
